import Mathlib

/-!
Verification of the ConvoNerd retrieval-augmented conversation pipeline
(src/app.py) against its natural-language specification.

The development shallowly embeds the program:
* the Streamlit session (`AppState`) with its `conversation` and
  `chat_history` keys (src/app.py:160-163),
* the Process action (src/app.py:179-195 with `get_pdf_text`,
  src/app.py:34-51),
* the ask/query action `handle_userinput` (src/app.py:125-138) together
  with the call protocol of the langchain `ConversationalRetrievalChain`
  with a `ConversationBufferMemory` as configured in
  `get_conversation_chain` (src/app.py:78-122),
* the condenser prompt template `custom_template` (src/app.py:23-26),
* the chunker `get_text_chunks` (src/app.py:54-61), modelling langchain's
  `RecursiveCharacterTextSplitter` with its default separators,
  `keep_separator = True` and whitespace stripping,
* spec-modelled versions of the embedder and the vector index, whose
  implementations (BAAI bge embeddings, FAISS) are external dependencies
  not present under src/; only their configuration
  (`normalize_embeddings = True`, `k = 2`) appears in the source.

Model generation itself is abstracted as an oracle function, since the
answers of the quantized Llama-2 model are not part of the code.
-/

/-! ### The condenser prompt template (src/app.py:23-26) -/

/-- A single-quote character, built from its code point so the template
string below can be assembled exactly as in the source. -/
def squote : String := String.singleton (Char.ofNat 39)

/-- The answer-language instruction the template tells the model to append
(src/app.py:24). -/
def languageTag : String := "Answer the question in German language."

/-- The insufficient-context sentinel named by the template
(src/app.py:25). -/
def sentinel : String := "I am sorry"

/-- Template text before the language instruction (src/app.py:23-24). -/
def tpl1 : String := "Given the following conversation and a follow up question, rephrase the follow up question to be \na standalone question. At the end of standalone question add this "

/-- Template text between the language instruction and the sentinel
(src/app.py:24-25). -/
def tpl2 : String := " If you do \nnot know the answer reply with "

/-- Template text between the sentinel and the chat-history placeholder
(src/app.py:25). -/
def tpl3 : String := ". Chat History: "

/-- Template text between the chat-history and question placeholders
(src/app.py:25). -/
def tpl4 : String := " Follow Up Input: "

/-- Template text after the question placeholder (src/app.py:25-26). -/
def tpl5 : String := " Standalone \nquestion:"

/-- The chat-history substitution field of the template. -/
def placeholderH : String := "{chat_history}"

/-- The question substitution field of the template. -/
def placeholderQ : String := "{question}"

/-- The condensing prompt template `custom_template` (src/app.py:23-26),
assembled from its pieces; the concatenation below is character for
character the Python string literal. -/
def custom_template : String :=
  tpl1 ++ squote ++ languageTag ++ squote ++ tpl2 ++ squote ++ sentinel ++ squote ++ tpl3
    ++ placeholderH ++ tpl4 ++ placeholderQ ++ tpl5

/-- Substituting concrete history and question texts into the two fields of
`custom_template`; this is the semantics of
`PromptTemplate.from_template(custom_template).format(...)`
(src/app.py:30): each field is replaced by its value, values are not
rescanned. -/
def formatPrompt (hist q : String) : String :=
  tpl1 ++ squote ++ languageTag ++ squote ++ tpl2 ++ squote ++ sentinel ++ squote ++ tpl3
    ++ hist ++ tpl4 ++ q ++ tpl5

/-- The condensing stage of `ConversationalRetrievalChain` as configured
with `condense_question_prompt = prompt` (src/app.py:114-120): the chain
stringifies the chat history and, when that string is empty, skips the
question generator and uses the input question unchanged; otherwise the
standalone question is whatever the language model `llm` generates from
the formatted prompt. -/
def condenseQ (llm : String → String) (hist q : String) : String :=
  if hist.isEmpty then q else llm (formatPrompt hist q)

/-! ### Orchestrator state (src/app.py:125-195) -/

/-- A chat message as stored by langchain's `ConversationBufferMemory`
with `return_messages=True` (src/app.py:111-112): either a human question
or an AI answer. -/
inductive Msg where
  | human (content : String)
  | ai (content : String)
deriving DecidableEq

/-- Recognizer for human messages; `handle_userinput` renders even-indexed
messages with the user template (src/app.py:131-138). -/
def isHumanMsg : Msg → Bool
  | .human _ => true
  | .ai _ => false

/-- The conversation chain of `get_conversation_chain` (src/app.py:78-122),
reduced to the state it owns: the message list of its
`ConversationBufferMemory`. A freshly built chain has empty memory. -/
structure Chain where
  memory : List Msg
deriving DecidableEq

/-- The Streamlit session state used by `main` (src/app.py:160-163)
together with the contents of the `uploaded_files` directory managed by
`get_pdf_text` (src/app.py:34-51). `conversation` and `chat_history` are
initialized to `None`. -/
structure AppState where
  savedFiles : List String
  conversation : Option Chain
  chat_history : Option (List Msg)
deriving DecidableEq

/-- The initial session: no saved files, `conversation = None`,
`chat_history = None` (src/app.py:160-163). -/
def initState : AppState := { savedFiles := [], conversation := none, chat_history := none }

/-- The fallible stages of ingestion after the files have been saved:
PDF loading (src/app.py:47-48), chunking (src/app.py:186), embedding-model
loading (src/app.py:68-74), chain/LLM construction (src/app.py:86-120). -/
inductive IngestStage where
  | load
  | chunk
  | embed
  | buildChain
deriving DecidableEq

/-- Errors surfaced by the app: the no-index guard of `main`
(src/app.py:171-172) and an exception escaping one of the ingestion
stages. -/
inductive AppError where
  | noIndex
  | ingestFailed (stage : IngestStage)
deriving DecidableEq

/-- The Process action (src/app.py:179-195). With a non-empty batch,
`get_pdf_text` first deletes every previously saved file and writes the
new batch (src/app.py:36-44) and only then runs the fallible stages; on
full success the session's `conversation` is replaced by a chain with a
fresh, empty memory (src/app.py:192), and `chat_history` is never touched
by this handler. `fail` says which stage, if any, raises. -/
def processAction (fail : Option IngestStage) (batch : List String) (s : AppState) :
    AppState × Option AppError :=
  if batch.isEmpty then (s, none)
  else
    let s1 : AppState := { s with savedFiles := batch }
    match fail with
    | some st => (s1, some (.ingestFailed st))
    | none => ({ s1 with conversation := some ⟨[]⟩ }, none)

/-- The ask action: `main`'s guard (src/app.py:168-172) plus
`handle_userinput` (src/app.py:125-129) under the langchain call protocol:
the chain loads `chat_history` from its own memory (overriding the value
passed in), generates an answer (abstracted as `gen`), appends the human
question and the AI answer to the memory, and returns the memory's message
list — which, being the very list object the memory mutates, includes the
new turn by the time `handle_userinput` stores it into
`st.session_state.chat_history`. -/
def askAction (gen : List Msg → String → String) (q : String) (s : AppState) :
    AppState × Option AppError :=
  match s.conversation with
  | none => (s, some .noIndex)
  | some c =>
    let ans := gen c.memory q
    let mem2 := c.memory ++ [Msg.human q, Msg.ai ans]
    ({ s with conversation := some ⟨mem2⟩, chat_history := some mem2 }, none)

/-- The claim's notion of appending exactly one (question, answer) turn to
a history. -/
def appendedOneTurn (old new : List Msg) : Prop :=
  ∃ q a, new = old ++ [Msg.human q, Msg.ai a]

/-! ### C1: asking with no index built -/

/-- C1: a question asked while no index has been built (`conversation` is
`None`, as after `main`'s initialization and before any Process) is
rejected with the no-index error and the whole session state — in
particular the conversation object and the chat history — is returned
unchanged (src/app.py:168-172). -/
theorem ask_without_index_rejected (gen : List Msg → String → String) (q : String)
    (s : AppState) (h : s.conversation = none) :
    askAction gen q s = (s, some AppError.noIndex) := by
  unfold askAction
  rw [h]

/-- Witness for C1 at the freshly initialized session. -/
theorem ask_without_index_rejected_witness :
    initState.conversation = none ∧
      askAction (fun _ _ => "A") "hello" initState = (initState, some AppError.noIndex) :=
  ⟨rfl, ask_without_index_rejected (fun _ _ => "A") "hello" initState rfl⟩

/-! ### C2: Process and the chat history -/

/-- C2 counterexample: a successful Process does not leave the chat
history empty. In the session below (reachable: Process, one answered
question, then a second Process), the history still holds the old turn
after the new batch is processed, because the Process handler
(src/app.py:179-195) never writes `st.session_state.chat_history`. -/
theorem process_leaves_history_nonempty :
    (processAction none ["new.pdf"]
        { savedFiles := ["old.pdf"], conversation := some ⟨[]⟩,
          chat_history := some [Msg.human "q1", Msg.ai "a1"] }).1.chat_history
      = some [Msg.human "q1", Msg.ai "a1"] ∧
    some [Msg.human "q1", Msg.ai "a1"] ≠ (some ([] : List Msg)) := by
  constructor
  · rfl
  · decide

/-- C2 amended: a successful Process with a non-empty batch installs a
fresh conversation chain whose internal memory (the history the chain
actually condenses against) is empty, saves the new batch, and leaves the
session's `chat_history` field exactly as it was; the field is only
rewritten by the next ask action. -/
theorem process_resets_memory_not_history (batch : List String) (s : AppState)
    (h : batch ≠ []) :
    processAction none batch s
      = ({ savedFiles := batch, conversation := some ⟨[]⟩,
           chat_history := s.chat_history }, none) := by
  unfold processAction
  rw [if_neg (by simpa using h)]

/-- Witness for C2 amended at a concrete non-empty batch and session. -/
theorem process_resets_memory_not_history_witness :
    (["new.pdf"] : List String) ≠ [] ∧
      processAction none ["new.pdf"]
          { savedFiles := ["old.pdf"], conversation := some ⟨[]⟩,
            chat_history := some [Msg.human "q1", Msg.ai "a1"] }
        = ({ savedFiles := ["new.pdf"], conversation := some ⟨[]⟩,
             chat_history := some [Msg.human "q1", Msg.ai "a1"] }, none) :=
  ⟨by decide,
   process_resets_memory_not_history ["new.pdf"]
     { savedFiles := ["old.pdf"], conversation := some ⟨[]⟩,
       chat_history := some [Msg.human "q1", Msg.ai "a1"] } (by decide)⟩

/-! ### C3: atomicity of ingestion -/

/-- C3 counterexample: ingestion is not atomic. With a failure at the
embedding stage, the resulting state is not the pre-call state: the
previously saved document files are gone (`get_pdf_text` deletes them and
writes the new batch before any fallible stage runs, src/app.py:36-44),
even though the operation failed. -/
theorem ingest_failure_mutates_files :
    (processAction (some .embed) ["new.pdf"]
        { savedFiles := ["old.pdf"], conversation := some ⟨[Msg.human "q1", Msg.ai "a1"]⟩,
          chat_history := some [Msg.human "q1", Msg.ai "a1"] }).1.savedFiles
      = ["new.pdf"] ∧
    (["new.pdf"] : List String) ≠ ["old.pdf"] ∧
    (processAction (some .embed) ["new.pdf"]
        { savedFiles := ["old.pdf"], conversation := some ⟨[Msg.human "q1", Msg.ai "a1"]⟩,
          chat_history := some [Msg.human "q1", Msg.ai "a1"] }).2
      = some (AppError.ingestFailed .embed) := by
  refine ⟨rfl, by decide, rfl⟩

/-- C3 amended: when any post-save ingestion stage fails, the previously
built conversation chain and the chat history are indeed left untouched
(the chain is only replaced as the final step on success), but the saved
document files are not: the uploaded-files directory already holds the new
batch in place of the old files, so the file state is partially advanced
rather than rolled back. -/
theorem ingest_failure_keeps_chain_replaces_files (stage : IngestStage)
    (batch : List String) (s : AppState) (h : batch ≠ []) :
    processAction (some stage) batch s
      = ({ savedFiles := batch, conversation := s.conversation,
           chat_history := s.chat_history }, some (AppError.ingestFailed stage)) := by
  unfold processAction
  rw [if_neg (by simpa using h)]

/-- Witness for C3 amended: a concrete failing ingestion. -/
theorem ingest_failure_keeps_chain_replaces_files_witness :
    (["new.pdf"] : List String) ≠ [] ∧
      processAction (some .load) ["new.pdf"]
          { savedFiles := ["old.pdf"], conversation := some ⟨[]⟩, chat_history := none }
        = ({ savedFiles := ["new.pdf"], conversation := some ⟨[]⟩,
             chat_history := none }, some (AppError.ingestFailed .load)) :=
  ⟨by decide,
   ingest_failure_keeps_chain_replaces_files .load ["new.pdf"]
     { savedFiles := ["old.pdf"], conversation := some ⟨[]⟩, chat_history := none }
     (by decide)⟩

/-! ### Shared characterizations of the ask step -/

/-- Helper: the ask step when no conversation chain exists. -/
theorem askAction_none_eq (gen : List Msg → String → String) (q : String)
    (s : AppState) (h : s.conversation = none) :
    askAction gen q s = (s, some AppError.noIndex) := by
  unfold askAction
  rw [h]

/-- Helper: the ask step when a conversation chain exists: the memory grows
by the human question and the AI answer, and the session history is set to
that grown memory. -/
theorem askAction_some_eq (gen : List Msg → String → String) (q : String)
    (s : AppState) (c : Chain) (h : s.conversation = some c) :
    askAction gen q s
      = ({ s with
            conversation := some ⟨c.memory ++ [Msg.human q, Msg.ai (gen c.memory q)]⟩,
            chat_history := some (c.memory ++ [Msg.human q, Msg.ai (gen c.memory q)]) },
         none) := by
  unfold askAction
  rw [h]

/-- A concrete answer oracle for concrete scenarios. -/
def genA : List Msg → String → String := fun _ _ => "A"

/-- Reachable session after Process ["f1"] and one answered question:
the session history coincides with the chain's memory. -/
def steadyState : AppState :=
  (askAction genA "q1" (processAction none ["f1"] initState).1).1

/-- Reachable session after a second Process: one turn is still displayed
in `chat_history` while the fresh chain's memory is empty. -/
def reprocessedState : AppState :=
  (processAction none ["f2"] steadyState).1

/-! ### C8: queries and the append-only history -/

/-- C8 counterexample: a successful query need not append exactly one turn
to the chat history. In the reachable session below (Process, one answered
question, Process again), the next successful query replaces the displayed
turn (q1, A) by the single new turn (q2, A): the old turn is removed, so
the history between the two states is not an append. -/
theorem ask_after_reprocess_not_append :
    reprocessedState.chat_history = some [Msg.human "q1", Msg.ai "A"] ∧
    (askAction genA "q2" reprocessedState).2 = none ∧
    (askAction genA "q2" reprocessedState).1.chat_history
      = some [Msg.human "q2", Msg.ai "A"] ∧
    ¬ appendedOneTurn [Msg.human "q1", Msg.ai "A"] [Msg.human "q2", Msg.ai "A"] := by
  refine ⟨by decide, by decide, by decide, ?_⟩
  rintro ⟨q, a, h⟩
  simp at h

/-- C8 amended: a successful query in a session with a chain appends
exactly one (question, answer) turn to the chain's memory and overwrites
the session history with that grown memory. While the session history
equals the chain memory (the steady state within one Process epoch) this
is an append of exactly the new turn with no existing turn modified; the
first query after a re-Process instead discards the previously displayed
turns, because the fresh chain starts from empty memory. -/
theorem ask_appends_turn_to_memory (gen : List Msg → String → String) (q : String)
    (s : AppState) (c : Chain) (h : s.conversation = some c) :
    (askAction gen q s).2 = none ∧
    (askAction gen q s).1.conversation
      = some ⟨c.memory ++ [Msg.human q, Msg.ai (gen c.memory q)]⟩ ∧
    (askAction gen q s).1.chat_history
      = some (c.memory ++ [Msg.human q, Msg.ai (gen c.memory q)]) ∧
    (s.chat_history = some c.memory →
      appendedOneTurn c.memory (c.memory ++ [Msg.human q, Msg.ai (gen c.memory q)])) := by
  rw [askAction_some_eq gen q s c h]
  exact ⟨rfl, rfl, rfl, fun _ => ⟨q, gen c.memory q, rfl⟩⟩

/-- Witness for C8 amended at the steady state after one answered turn. -/
theorem ask_appends_turn_to_memory_witness :
    steadyState.conversation = some ⟨[Msg.human "q1", Msg.ai "A"]⟩ ∧
    (askAction genA "q2" steadyState).1.chat_history
      = some ([Msg.human "q1", Msg.ai "A"] ++ [Msg.human "q2", Msg.ai "A"]) :=
  ⟨by decide,
   (ask_appends_turn_to_memory genA "q2" steadyState
     ⟨[Msg.human "q1", Msg.ai "A"]⟩ (by decide)).2.2.1⟩

/-! ### C10: the alternation invariant of the rendered history -/

/-- Canonical form of a complete history: a list of (question, answer)
turns rendered as alternating human/AI messages. -/
def histOfTurns : List (String × String) → List Msg
  | [] => []
  | (q, a) :: ts => Msg.human q :: Msg.ai a :: histOfTurns ts

/-- A message list made of complete turns. -/
def TurnsShaped (l : List Msg) : Prop := ∃ ts, l = histOfTurns ts

/-- Helper: the empty history is made of complete turns. -/
theorem turnsShaped_nil : TurnsShaped [] := ⟨[], rfl⟩

/-- Helper: `histOfTurns` maps list append to message append. -/
theorem histOfTurns_append (ts us : List (String × String)) :
    histOfTurns (ts ++ us) = histOfTurns ts ++ histOfTurns us := by
  induction ts with
  | nil => rfl
  | cons t ts ih =>
    obtain ⟨q, a⟩ := t
    simp [histOfTurns, ih]

/-- Helper: appending one complete turn preserves the turn shape. -/
theorem turnsShaped_append_turn (l : List Msg) (q a : String) (h : TurnsShaped l) :
    TurnsShaped (l ++ [Msg.human q, Msg.ai a]) := by
  obtain ⟨ts, rfl⟩ := h
  exact ⟨ts ++ [(q, a)], by rw [histOfTurns_append]; rfl⟩

/-- Helper: the Process action never touches the session history. -/
theorem process_chat_history (fail : Option IngestStage) (batch : List String)
    (s : AppState) : (processAction fail batch s).1.chat_history = s.chat_history := by
  unfold processAction
  split
  · rfl
  · cases fail <;> rfl

/-- Helper: the Process action either keeps the chain or installs a fresh
one with empty memory. -/
theorem process_conversation (fail : Option IngestStage) (batch : List String)
    (s : AppState) :
    (processAction fail batch s).1.conversation = s.conversation ∨
    (processAction fail batch s).1.conversation = some ⟨[]⟩ := by
  unfold processAction
  split
  · exact Or.inl rfl
  · cases fail with
    | none => exact Or.inr rfl
    | some st => exact Or.inl rfl

/-- The sessions reachable from the freshly initialized app by any
sequence of Process actions (with arbitrary batches and failures) and
submitted questions, for a fixed answer oracle `gen`. -/
inductive Reachable (gen : List Msg → String → String) : AppState → Prop where
  | init : Reachable gen initState
  | proc (fail : Option IngestStage) (batch : List String) {s : AppState} :
      Reachable gen s → Reachable gen (processAction fail batch s).1
  | ask (q : String) {s : AppState} :
      Reachable gen s → Reachable gen (askAction gen q s).1

/-- Helper invariant: in every reachable session, both the displayed
history and the chain memory consist of complete turns. -/
theorem reachable_turnsShaped {gen : List Msg → String → String} {s : AppState}
    (h : Reachable gen s) :
    (∀ hist, s.chat_history = some hist → TurnsShaped hist) ∧
    (∀ c, s.conversation = some c → TurnsShaped c.memory) := by
  induction h with
  | init =>
    constructor <;> intro x hx <;> exact absurd hx (by simp [initState])
  | proc fail batch hr ih =>
    constructor
    · intro hist hh
      rw [process_chat_history] at hh
      exact ih.1 hist hh
    · intro c hc
      rcases process_conversation fail batch _ with hp | hp
      · rw [hp] at hc
        exact ih.2 c hc
      · rw [hp] at hc
        injection hc with hc'
        rw [← hc']
        exact turnsShaped_nil
  | ask q hr ih =>
    rename_i s'
    cases hc : s'.conversation with
    | none =>
      have hstep : (askAction gen q s').1 = s' := by
        rw [askAction_none_eq gen q s' hc]
      rw [hstep]
      exact ih
    | some c =>
      have hstep := askAction_some_eq gen q s' c hc
      constructor
      · intro hist hh
        rw [hstep] at hh
        have hh' : some (c.memory ++ [Msg.human q, Msg.ai (gen c.memory q)]) = some hist := hh
        injection hh' with hh''
        rw [← hh'']
        exact turnsShaped_append_turn _ q _ (ih.2 c hc)
      · intro c' hc'
        rw [hstep] at hc'
        have hcc : some (Chain.mk (c.memory ++ [Msg.human q, Msg.ai (gen c.memory q)])) = some c' := hc'
        injection hcc with hcc'
        rw [← hcc']
        exact turnsShaped_append_turn _ q _ (ih.2 c hc)

/-- Helper: a turn-shaped history has even length, human messages at even
indices and AI messages at odd indices. -/
theorem turnsShaped_alternates (l : List Msg) (h : TurnsShaped l) :
    l.length % 2 = 0 ∧
    (∀ i, (hi : i < l.length) → i % 2 = 0 → isHumanMsg l[i] = true) ∧
    (∀ i, (hi : i < l.length) → i % 2 = 1 → isHumanMsg l[i] = false) := by
  obtain ⟨ts, rfl⟩ := h
  induction ts with
  | nil =>
    refine ⟨rfl, ?_, ?_⟩ <;> intro i hi _ <;> exact absurd hi (by simp [histOfTurns])
  | cons t ts ih =>
    obtain ⟨q, a⟩ := t
    refine ⟨?_, ?_, ?_⟩
    · have := ih.1
      simp only [histOfTurns, List.length_cons]
      omega
    · intro i hi he
      cases i with
      | zero => simp [histOfTurns, isHumanMsg]
      | succ j =>
        cases j with
        | zero => exact absurd he (by decide)
        | succ k =>
          have hk : k < (histOfTurns ts).length := by
            simp only [histOfTurns, List.length_cons] at hi
            omega
          have hko := ih.2.1 k hk (by omega)
          simpa [histOfTurns] using hko
    · intro i hi he
      cases i with
      | zero => exact absurd he (by decide)
      | succ j =>
        cases j with
        | zero => simp [histOfTurns, isHumanMsg]
        | succ k =>
          have hk : k < (histOfTurns ts).length := by
            simp only [histOfTurns, List.length_cons] at hi
            omega
          have hko := ih.2.2 k hk (by omega)
          simpa [histOfTurns] using hko

/-- C10: in every reachable session, the displayed chat history strictly
alternates user question then assistant answer starting with a question:
its length is even, every even-indexed message is a human (user) message
and every odd-indexed message is an AI (assistant) message — the invariant
the rendering loop of `handle_userinput` (src/app.py:131-138) relies on. -/
theorem chat_history_alternates (gen : List Msg → String → String) (s : AppState)
    (hist : List Msg) (hr : Reachable gen s) (hh : s.chat_history = some hist) :
    hist.length % 2 = 0 ∧
    (∀ i, (hi : i < hist.length) → i % 2 = 0 → isHumanMsg hist[i] = true) ∧
    (∀ i, (hi : i < hist.length) → i % 2 = 1 → isHumanMsg hist[i] = false) :=
  turnsShaped_alternates hist ((reachable_turnsShaped hr).1 hist hh)

/-- Reachable session holding two displayed turns. -/
def twoTurnState : AppState := (askAction genA "q2" steadyState).1

/-- Witness for C10 at a reachable two-turn session. -/
theorem chat_history_alternates_witness :
    twoTurnState.chat_history
      = some [Msg.human "q1", Msg.ai "A", Msg.human "q2", Msg.ai "A"] ∧
    ([Msg.human "q1", Msg.ai "A", Msg.human "q2", Msg.ai "A"] : List Msg).length % 2 = 0 ∧
    isHumanMsg (Msg.human "q1") = true ∧
    isHumanMsg (Msg.ai "A") = false := by
  have hr : Reachable genA twoTurnState :=
    Reachable.ask "q2" (Reachable.ask "q1" (Reachable.proc none ["f1"] Reachable.init))
  have hmain := chat_history_alternates genA twoTurnState
    [Msg.human "q1", Msg.ai "A", Msg.human "q2", Msg.ai "A"] hr (by decide)
  exact ⟨by decide, hmain.1, hmain.2.1 0 (by decide) (by decide),
    hmain.2.2 1 (by decide) (by decide)⟩

/-! ### Character-sequence search (used for sentinel occurrence and the
splitter's separator search) -/

/-- Whether `p` is an initial run of `l`. -/
def startsSeq : List Char → List Char → Bool
  | [], _ => true
  | _ :: _, [] => false
  | a :: as, b :: bs => a == b && startsSeq as bs

/-- Whether the character sequence `sep` occurs contiguously in the text;
this is `re.search` for the literal separator patterns of the splitter and
plain substring search elsewhere. -/
def containsSeq (sep : List Char) : List Char → Bool
  | [] => sep.isEmpty
  | c :: cs => startsSeq sep (c :: cs) || containsSeq sep cs

/-! ### C4: the condenser and the language instruction -/

/-- C4 counterexample: with empty chat history the chain skips the
condenser entirely and uses the input question unchanged — no language
instruction is appended at all, so the condensed question is not the input
question with the instruction appended; and with non-empty history the
output is a model generation on the formatted prompt, so it is
model-dependent, not produced by code concatenation. -/
theorem condense_not_plain_concat :
    condenseQ (fun s => s) "" "Hi" = "Hi" ∧
    ("Hi" : String) ≠ "Hi" ++ languageTag ∧
    condenseQ (fun _ => "fixed") "h" "Hi" ≠ condenseQ (fun s => s) "h" "Hi" := by
  refine ⟨rfl, by decide, by decide⟩

set_option maxRecDepth 8192 in
/-- C4 amended: when the chat history is empty the condenser is skipped
entirely and the standalone question equals the input question unchanged,
with no language instruction appended; when the history is non-empty, the
condensed question is the model's output on the template with history and
question substituted, and the answer-language instruction occurs verbatim
inside that template (exhibited by the factorization below) — its
appending is delegated to the model by the prompt text, not performed by
string concatenation in code. -/
theorem condense_skip_or_model_output :
    (∀ llm : String → String, ∀ q : String, condenseQ llm "" q = q) ∧
    (∀ llm : String → String, ∀ hist q : String, hist ≠ "" →
      condenseQ llm hist q
        = llm (tpl1 ++ squote ++ languageTag ++ squote ++ tpl2 ++ squote ++ sentinel
            ++ squote ++ tpl3 ++ hist ++ tpl4 ++ q ++ tpl5)) ∧
    custom_template
      = (tpl1 ++ squote) ++ languageTag
          ++ (squote ++ tpl2 ++ squote ++ sentinel ++ squote ++ tpl3
                ++ placeholderH ++ tpl4 ++ placeholderQ ++ tpl5) := by
  refine ⟨?_, ?_, ?_⟩
  · intro llm q
    rfl
  · intro llm hist q hne
    have hb : hist.isEmpty = false := by
      cases hb : hist.isEmpty with
      | false => rfl
      | true => exact absurd ((String.isEmpty_iff hist).mp hb) hne
    simp [condenseQ, hb, formatPrompt]
  · decide

/-- Witness for C4 amended: a concrete empty history skips the model, and
a concrete non-empty history goes to the model with the formatted prompt. -/
theorem condense_skip_or_model_output_witness :
    condenseQ (fun _ => "X") "" "Hi" = "Hi" ∧
    ("h" : String) ≠ "" ∧
    condenseQ (fun s => s) "h" "Hi"
      = tpl1 ++ squote ++ languageTag ++ squote ++ tpl2 ++ squote ++ sentinel
          ++ squote ++ tpl3 ++ "h" ++ tpl4 ++ "Hi" ++ tpl5 :=
  ⟨condense_skip_or_model_output.1 (fun _ => "X") "Hi",
   by decide,
   condense_skip_or_model_output.2.1 (fun s => s) "h" "Hi" (by decide)⟩

/-! ### C9: the insufficient-context sentinel -/

/-- An answer oracle standing for a model that answers an off-document
question from its own knowledge, without the sentinel. -/
def genHamlet : List Msg → String → String := fun _ _ => "Shakespeare wrote Hamlet."

/-- C9 counterexample: nothing in the code makes the sentinel appear. In a
session whose single ingested document is about France, asking a question
whose answer is absent from it yields, for the modelled generation above,
an answer stored and returned verbatim that does not contain the sentinel
"I am sorry" — the claimed guarantee depends entirely on the model. -/
theorem answer_without_sentinel :
    (askAction genHamlet "Who wrote Hamlet?"
        (processAction none ["france.pdf"] initState).1).1.conversation
      = some ⟨[Msg.human "Who wrote Hamlet?", Msg.ai "Shakespeare wrote Hamlet."]⟩ ∧
    containsSeq sentinel.toList "Shakespeare wrote Hamlet.".toList = false := by
  exact ⟨by decide, by decide⟩

set_option maxRecDepth 8192 in
/-- C9 amended: the sentinel policy is communicated solely through the
condenser's prompt template — the string "I am sorry" occurs verbatim in
`custom_template` (exhibited by the factorization below) — and no code
path enforces or checks for it: the ask step stores the model's answer in
the history verbatim, without inspecting or rewriting it. -/
theorem sentinel_only_in_template (gen : List Msg → String → String) (q : String)
    (s : AppState) (c : Chain) (h : s.conversation = some c) :
    custom_template
      = (tpl1 ++ squote ++ languageTag ++ squote ++ tpl2 ++ squote) ++ sentinel
          ++ (squote ++ tpl3 ++ placeholderH ++ tpl4 ++ placeholderQ ++ tpl5) ∧
    (askAction gen q s).1.conversation
      = some ⟨c.memory ++ [Msg.human q, Msg.ai (gen c.memory q)]⟩ := by
  constructor
  · decide
  · rw [askAction_some_eq gen q s c h]

/-- Witness for C9 amended at a concrete session with a chain. -/
theorem sentinel_only_in_template_witness :
    steadyState.conversation = some ⟨[Msg.human "q1", Msg.ai "A"]⟩ ∧
    (askAction genA "q2" steadyState).1.conversation
      = some ⟨[Msg.human "q1", Msg.ai "A"] ++ [Msg.human "q2", Msg.ai "A"]⟩ :=
  ⟨by decide,
   (sentinel_only_in_template genA "q2" steadyState
     ⟨[Msg.human "q1", Msg.ai "A"]⟩ (by decide)).2⟩

/-! ### C7: the embedder (spec-modelled) -/

/-- Modelled from the spec: the sum of squared components of an embedding
vector, i.e. the square of its L2 norm. The embedding computation itself
(the BAAI bge model behind `HuggingFaceBgeEmbeddings`, src/app.py:65-72)
is an external dependency not under src/, so vectors are modelled as real
lists and the raw model as an abstract function. -/
noncomputable def sumSq : List ℝ → ℝ
  | [] => 0
  | x :: xs => x * x + sumSq xs

/-- Modelled from the spec: the L2 norm of an embedding vector. -/
noncomputable def l2norm (v : List ℝ) : ℝ := Real.sqrt (sumSq v)

/-- Modelled from the spec: L2 normalization of a vector, as requested by
`encode_kwargs = {normalize_embeddings: True}` (src/app.py:67). -/
noncomputable def normalizeVec (v : List ℝ) : List ℝ := v.map fun x => x / l2norm v

/-- The normalization flag the source passes to the embedder, set True to
compute cosine similarity (src/app.py:67). -/
def normalize_embeddings : Bool := true

/-- Modelled from the spec: the embedder maps a batch of chunk texts to
one vector per text in the same order, L2-normalizing each vector when
`normalize_embeddings` is set (src/app.py:64-72); `raw` is the underlying
model's unnormalized output. -/
noncomputable def embedBatch (raw : String → List ℝ) (texts : List String) : List (List ℝ) :=
  if normalize_embeddings then texts.map fun t => normalizeVec (raw t)
  else texts.map raw

/-- Helper: a sum of squares is nonnegative. -/
theorem sumSq_nonneg (v : List ℝ) : 0 ≤ sumSq v := by
  induction v with
  | nil => exact le_refl 0
  | cons x xs ih =>
    have hx : 0 ≤ x * x := mul_self_nonneg x
    calc (0 : ℝ) ≤ x * x + sumSq xs := by linarith
    _ = sumSq (x :: xs) := rfl

/-- Helper: dividing every component by `s` divides the squared norm by
`s * s`. -/
theorem sumSq_map_div (v : List ℝ) (s : ℝ) :
    sumSq (v.map fun x => x / s) = sumSq v / (s * s) := by
  induction v with
  | nil => simp [sumSq]
  | cons x xs ih =>
    show (x / s) * (x / s) + sumSq (xs.map fun x => x / s) = (x * x + sumSq xs) / (s * s)
    rw [ih, div_mul_div_comm, div_add_div_same]

/-- Helper: normalization yields a unit vector whenever the raw vector is
not the zero vector. -/
theorem l2norm_normalizeVec (v : List ℝ) (h : sumSq v ≠ 0) :
    l2norm (normalizeVec v) = 1 := by
  have hnn := sumSq_nonneg v
  have hsq : sumSq (normalizeVec v) = 1 := by
    unfold normalizeVec
    rw [sumSq_map_div, l2norm, Real.mul_self_sqrt hnn, div_self h]
  rw [l2norm, hsq, Real.sqrt_one]

/-- C7: for every batch of chunk texts, the embedder returns exactly one
vector per input text in the same order (pointwise, the i-th output is the
normalization of the raw model's vector for the i-th text), and — since
the source configures `normalize_embeddings = True` for cosine similarity —
every returned vector has L2 norm 1 (given that the underlying model never
returns a zero vector). -/
theorem embedder_batch_spec (raw : String → List ℝ) (texts : List String)
    (hraw : ∀ t, sumSq (raw t) ≠ 0) :
    (embedBatch raw texts).length = texts.length ∧
    (∀ i : Nat, (embedBatch raw texts)[i]? = (texts[i]?).map fun t => normalizeVec (raw t)) ∧
    (∀ w ∈ embedBatch raw texts, l2norm w = 1) := by
  refine ⟨?_, ?_, ?_⟩
  · simp [embedBatch, normalize_embeddings]
  · intro i
    simp [embedBatch, normalize_embeddings]
  · intro w hw
    simp only [embedBatch, normalize_embeddings, if_true, List.mem_map] at hw
    obtain ⟨t, _, rfl⟩ := hw
    exact l2norm_normalizeVec (raw t) (hraw t)

/-- Witness for C7 at a concrete raw model returning the vector (3, 4). -/
theorem embedder_batch_spec_witness :
    (∀ t : String, sumSq ((fun _ => [(3 : ℝ), 4]) t) ≠ 0) ∧
    (embedBatch (fun _ => [(3 : ℝ), 4]) ["a", "b"]).length = 2 ∧
    (∀ w ∈ embedBatch (fun _ => [(3 : ℝ), 4]) ["a", "b"], l2norm w = 1) := by
  have hraw : ∀ t : String, sumSq ((fun _ => [(3 : ℝ), 4]) t) ≠ 0 := by
    intro t
    show (3 : ℝ) * 3 + (4 * 4 + 0) ≠ 0
    norm_num
  have h := embedder_batch_spec (fun _ => [(3 : ℝ), 4]) ["a", "b"] hraw
  exact ⟨hraw, h.1, h.2.2⟩

/-! ### C6: the vector index (spec-modelled) -/

/-- Modelled from the spec: an entry of the built index as seen by a
query: insertion position, distance to the query vector, and the chunk
text. Coordinates are modelled as integers, which suffices for the
order-theoretic contract of the index. The index itself (FAISS, src/app.py:74) is an external dependency
not under src/; only the retriever configuration `k = 2`
(src/app.py:116) is source code. -/
structure QEntry where
  idx : Nat
  dist : ℤ
  chunk : String
deriving DecidableEq

/-- Modelled from the spec: squared L2 distance between two vectors. -/
def distQ (u v : List ℤ) : ℤ := ((u.zip v).map fun p => (p.1 - p.2) * (p.1 - p.2)).sum

/-- Modelled from the spec: the query entries of an index, tagging each
(vector, chunk) pair with its insertion position starting at `n` and its
distance to the query vector `qv`. -/
def entriesFrom (qv : List ℤ) (n : Nat) : List (List ℤ × String) → List QEntry
  | [] => []
  | p :: ps => ⟨n, distQ qv p.1, p.2⟩ :: entriesFrom qv (n + 1) ps

/-- Modelled from the spec: remove the entry with smallest distance,
choosing the earliest-inserted one among ties; `none` on the empty list. -/
def pickMin : List QEntry → Option (QEntry × List QEntry)
  | [] => none
  | e :: es =>
    match pickMin es with
    | none => some (e, [])
    | some (m, r) => if m.dist < e.dist then some (m, e :: r) else some (e, es)

/-- Modelled from the spec: the k nearest entries, by repeatedly removing
the minimum; ties are resolved toward the earlier insertion index. -/
def selectK : Nat → List QEntry → List QEntry
  | 0, _ => []
  | k + 1, es =>
    match pickMin es with
    | none => []
    | some (m, r) => m :: selectK k r

/-- Modelled from the spec: errors of the vector index query. -/
inductive IndexErr where
  | invalidArgument
  | emptyIndex
deriving DecidableEq

/-- Modelled from the spec: `query(vector, k)` on a built index. `k ≤ 0`
is invalid, an unbuilt or empty index cannot be queried, and otherwise the
min(k, size) nearest chunks are returned in order of increasing distance,
ties broken by insertion order. -/
def queryIndex (ix : List (List ℤ × String)) (qv : List ℤ) (k : Int) :
    Except IndexErr (List String) :=
  if k ≤ 0 then .error .invalidArgument
  else if ix.isEmpty then .error .emptyIndex
  else .ok ((selectK k.toNat (entriesFrom qv 0 ix)).map QEntry.chunk)

/-- The result ordering demanded of a query: strictly better rank, i.e.
smaller distance, or equal distance and earlier insertion. -/
def rankedBefore (a b : QEntry) : Prop :=
  a.dist < b.dist ∨ (a.dist = b.dist ∧ a.idx < b.idx)

/-- Helper: `pickMin` only fails on the empty list. -/
theorem pickMin_eq_none {es : List QEntry} (h : pickMin es = none) : es = [] := by
  cases es with
  | nil => rfl
  | cons e es' =>
    exfalso
    unfold pickMin at h
    cases h' : pickMin es' with
    | none => rw [h'] at h; exact Option.noConfusion h
    | some p =>
      obtain ⟨m, r⟩ := p
      rw [h'] at h
      dsimp at h
      split at h <;> exact Option.noConfusion h

/-- Helper: `pickMin` returns a permutation of its input. -/
theorem pickMin_perm : ∀ {es : List QEntry} {m r}, pickMin es = some (m, r) →
    es.Perm (m :: r) := by
  intro es
  induction es with
  | nil => intro m r h; exact absurd h (by simp [pickMin])
  | cons e es' ih =>
    intro m r h
    unfold pickMin at h
    cases h' : pickMin es' with
    | none =>
      rw [h'] at h
      dsimp at h
      have he := pickMin_eq_none h'
      subst he
      simp only [Option.some.injEq, Prod.mk.injEq] at h
      obtain ⟨h1, h2⟩ := h
      subst h1; subst h2
      exact List.Perm.refl _
    | some p =>
      obtain ⟨m', r'⟩ := p
      rw [h'] at h
      dsimp at h
      split at h
      · simp only [Option.some.injEq, Prod.mk.injEq] at h
        rcases h with ⟨rfl, rfl⟩
        exact ((ih h').cons e).trans (List.Perm.swap _ _ _)
      · simp only [Option.some.injEq, Prod.mk.injEq] at h
        obtain ⟨h1, h2⟩ := h
        subst h1; subst h2
        exact List.Perm.refl _

/-- Helper: the picked entry has minimal distance. -/
theorem pickMin_min : ∀ {es : List QEntry} {m r}, pickMin es = some (m, r) →
    ∀ x ∈ es, m.dist ≤ x.dist := by
  intro es
  induction es with
  | nil => intro m r h; exact absurd h (by simp [pickMin])
  | cons e es' ih =>
    intro m r h
    unfold pickMin at h
    cases h' : pickMin es' with
    | none =>
      rw [h'] at h
      dsimp at h
      have he := pickMin_eq_none h'
      subst he
      simp only [Option.some.injEq, Prod.mk.injEq] at h
      obtain ⟨h1, _⟩ := h
      subst h1
      intro x hx
      rcases List.mem_singleton.mp hx with rfl
      exact le_refl _
    | some p =>
      obtain ⟨m', r'⟩ := p
      rw [h'] at h
      dsimp at h
      split at h
      · rename_i hlt
        simp only [Option.some.injEq, Prod.mk.injEq] at h
        obtain ⟨h1, _⟩ := h
        subst h1
        intro x hx
        rcases List.mem_cons.mp hx with rfl | hx'
        · exact le_of_lt hlt
        · exact ih h' x hx'
      · rename_i hnlt
        simp only [Option.some.injEq, Prod.mk.injEq] at h
        obtain ⟨h1, _⟩ := h
        subst h1
        intro x hx
        rcases List.mem_cons.mp hx with rfl | hx'
        · exact le_refl _
        · exact le_trans (not_lt.mp hnlt) (ih h' x hx')

/-- Helper: the rest returned by `pickMin` is a sublist of the input. -/
theorem pickMin_sublist : ∀ {es : List QEntry} {m r}, pickMin es = some (m, r) →
    r.Sublist es := by
  intro es
  induction es with
  | nil => intro m r h; exact absurd h (by simp [pickMin])
  | cons e es' ih =>
    intro m r h
    unfold pickMin at h
    cases h' : pickMin es' with
    | none =>
      rw [h'] at h
      dsimp at h
      simp only [Option.some.injEq, Prod.mk.injEq] at h
      obtain ⟨_, h2⟩ := h
      subst h2
      exact List.nil_sublist _
    | some p =>
      obtain ⟨m', r'⟩ := p
      rw [h'] at h
      dsimp at h
      split at h
      · simp only [Option.some.injEq, Prod.mk.injEq] at h
        obtain ⟨_, h2⟩ := h
        subst h2
        exact (ih h').cons₂ e
      · simp only [Option.some.injEq, Prod.mk.injEq] at h
        obtain ⟨_, h2⟩ := h
        subst h2
        exact List.sublist_cons_self e es'

/-- Helper: among entries with strictly increasing insertion indices, the
picked minimum is the earliest-inserted among equal distances. -/
theorem pickMin_leftmost : ∀ {es : List QEntry} {m r},
    List.Pairwise (fun a b => a.idx < b.idx) es → pickMin es = some (m, r) →
    ∀ x ∈ r, m.dist = x.dist → m.idx < x.idx := by
  intro es
  induction es with
  | nil => intro m r _ h; exact absurd h (by simp [pickMin])
  | cons e es' ih =>
    intro m r hp h
    have hp2 := List.Pairwise.of_cons hp
    unfold pickMin at h
    cases h' : pickMin es' with
    | none =>
      rw [h'] at h
      dsimp at h
      simp only [Option.some.injEq, Prod.mk.injEq] at h
      obtain ⟨_, h2⟩ := h
      subst h2
      intro x hx
      exact absurd hx (List.not_mem_nil x)
    | some p =>
      obtain ⟨m', r'⟩ := p
      rw [h'] at h
      dsimp at h
      split at h
      · rename_i hlt
        simp only [Option.some.injEq, Prod.mk.injEq] at h
        obtain ⟨h1, h2⟩ := h
        subst h1; subst h2
        intro x hx hd
        rcases List.mem_cons.mp hx with rfl | hx'
        · exact absurd hd (ne_of_lt hlt)
        · exact ih hp2 h' x hx' hd
      · simp only [Option.some.injEq, Prod.mk.injEq] at h
        obtain ⟨h1, h2⟩ := h
        subst h1; subst h2
        intro x hx _
        exact List.rel_of_pairwise_cons hp hx

/-- Helper: `selectK` returns min(k, size) entries. -/
theorem selectK_length : ∀ (k : Nat) (es : List QEntry),
    (selectK k es).length = min k es.length := by
  intro k
  induction k with
  | zero => intro es; simp [selectK]
  | succ k ih =>
    intro es
    unfold selectK
    cases h : pickMin es with
    | none => rw [pickMin_eq_none h]; simp
    | some p =>
      obtain ⟨m, r⟩ := p
      dsimp
      rw [ih r]
      have hlen : es.length = r.length + 1 := by
        have := (pickMin_perm h).length_eq
        simpa using this
      rw [hlen, Nat.succ_min_succ]

/-- Helper: selected entries come from the input. -/
theorem selectK_subset : ∀ (k : Nat) {es : List QEntry} {x : QEntry},
    x ∈ selectK k es → x ∈ es := by
  intro k
  induction k with
  | zero => intro es x hx; exact absurd hx (by simp [selectK])
  | succ k ih =>
    intro es x hx
    unfold selectK at hx
    cases h : pickMin es with
    | none => rw [h] at hx; exact absurd hx (by simp)
    | some p =>
      obtain ⟨m, r⟩ := p
      rw [h] at hx
      dsimp at hx
      rcases List.mem_cons.mp hx with rfl | hx'
      · exact (pickMin_perm h).symm.subset (List.mem_cons_self x r)
      · exact (pickMin_perm h).symm.subset (List.mem_cons_of_mem m (ih hx'))

/-- Helper: the selection is ordered by distance, with ties broken by
insertion index, whenever the input indices strictly increase. -/
theorem selectK_pairwise : ∀ (k : Nat) {es : List QEntry},
    List.Pairwise (fun a b => a.idx < b.idx) es →
    List.Pairwise rankedBefore (selectK k es) := by
  intro k
  induction k with
  | zero => intro es _; simp [selectK]
  | succ k ih =>
    intro es hp
    unfold selectK
    cases h : pickMin es with
    | none => simp
    | some p =>
      obtain ⟨m, r⟩ := p
      dsimp
      have hpr : List.Pairwise (fun a b => a.idx < b.idx) r :=
        List.Pairwise.sublist (pickMin_sublist h) hp
      refine List.Pairwise.cons ?_ (ih hpr)
      intro b hb
      have hbr : b ∈ r := selectK_subset k hb
      have hbes : b ∈ es := (pickMin_perm h).symm.subset (List.mem_cons_of_mem m hbr)
      rcases lt_or_eq_of_le (pickMin_min h b hbes) with hlt | heq
      · exact Or.inl hlt
      · exact Or.inr ⟨heq, pickMin_leftmost hp h b hbr heq⟩

/-- Helper: no unselected entry beats a selected one: the selection really
is the k nearest. -/
theorem selectK_complete : ∀ (k : Nat) {es : List QEntry}, ∀ x ∈ es,
    x ∉ selectK k es → ∀ y ∈ selectK k es, y.dist ≤ x.dist := by
  intro k
  induction k with
  | zero => intro es x _ _ y hy; exact absurd hy (by simp [selectK])
  | succ k ih =>
    intro es x hx hnx y hy
    unfold selectK at hnx hy
    cases h : pickMin es with
    | none => rw [h] at hy; exact absurd hy (by simp)
    | some p =>
      obtain ⟨m, r⟩ := p
      rw [h] at hnx hy
      dsimp at hnx hy
      have hxm : x ≠ m := fun he => hnx (he ▸ List.mem_cons_self m _)
      have hxr : x ∈ r := by
        rcases List.mem_cons.mp ((pickMin_perm h).subset hx) with he | hr
        · exact absurd he hxm
        · exact hr
      have hnx' : x ∉ selectK k r := fun hc => hnx (List.mem_cons_of_mem m hc)
      rcases List.mem_cons.mp hy with rfl | hy'
      · exact pickMin_min h x hx
      · exact ih x hxr hnx' y hy'

/-- Helper: entries are tagged with strictly increasing insertion indices. -/
theorem entriesFrom_idx_ge (qv : List ℤ) : ∀ (ps : List (List ℤ × String)) (n : Nat),
    ∀ e ∈ entriesFrom qv n ps, n ≤ e.idx := by
  intro ps
  induction ps with
  | nil => intro n e he; exact absurd he (by simp [entriesFrom])
  | cons p ps' ih =>
    intro n e he
    unfold entriesFrom at he
    rcases List.mem_cons.mp he with rfl | he'
    · exact le_refl n
    · exact le_trans (Nat.le_succ n) (ih (n + 1) e he')

/-- Helper: the index entries are pairwise increasing in insertion order. -/
theorem entriesFrom_pairwise (qv : List ℤ) : ∀ (ps : List (List ℤ × String)) (n : Nat),
    List.Pairwise (fun a b => a.idx < b.idx) (entriesFrom qv n ps) := by
  intro ps
  induction ps with
  | nil => intro n; simp [entriesFrom]
  | cons p ps' ih =>
    intro n
    unfold entriesFrom
    refine List.Pairwise.cons ?_ (ih (n + 1))
    intro b hb
    exact lt_of_lt_of_le (Nat.lt_succ_self n) (entriesFrom_idx_ge qv ps' (n + 1) b hb)

/-- Helper: one entry per indexed pair. -/
theorem entriesFrom_length (qv : List ℤ) : ∀ (ps : List (List ℤ × String)) (n : Nat),
    (entriesFrom qv n ps).length = ps.length := by
  intro ps
  induction ps with
  | nil => intro n; rfl
  | cons p ps' ih => intro n; simp [entriesFrom, ih (n + 1)]

/-- C6: querying a built index of n chunks with k ≥ 1 returns exactly
min(k, n) chunks — the nearest ones, ordered by smallest distance to the
query vector with ties broken by the chunks' insertion order (no skipped
nearer entry); querying with k ≤ 0 fails with InvalidArgument, and
querying an unbuilt or empty index with a valid k fails with EmptyIndex. -/
theorem vector_index_query_spec (ix : List (List ℤ × String)) (qv : List ℤ) (k : Int) :
    (k ≤ 0 → queryIndex ix qv k = .error .invalidArgument) ∧
    (0 < k → ix = [] → queryIndex ix qv k = .error .emptyIndex) ∧
    (0 < k → ix ≠ [] →
      queryIndex ix qv k
          = .ok ((selectK k.toNat (entriesFrom qv 0 ix)).map QEntry.chunk) ∧
      (selectK k.toNat (entriesFrom qv 0 ix)).length = min k.toNat ix.length ∧
      List.Pairwise rankedBefore (selectK k.toNat (entriesFrom qv 0 ix)) ∧
      (∀ x ∈ entriesFrom qv 0 ix, x ∉ selectK k.toNat (entriesFrom qv 0 ix) →
        ∀ y ∈ selectK k.toNat (entriesFrom qv 0 ix), y.dist ≤ x.dist)) := by
  refine ⟨?_, ?_, ?_⟩
  · intro hk
    simp [queryIndex, hk]
  · intro hk hempty
    subst hempty
    simp [queryIndex, not_le.mpr hk]
  · intro hk hne
    refine ⟨?_, ?_, ?_, ?_⟩
    · simp [queryIndex, not_le.mpr hk, List.isEmpty_iff, hne]
    · rw [selectK_length, entriesFrom_length]
    · exact selectK_pairwise _ (entriesFrom_pairwise qv ix 0)
    · exact selectK_complete _

/-- Witness for C6: a three-chunk index with a duplicate nearest vector,
queried with k = 0, on the empty index, and with k = 2; the tie between
the chunks "a" and "c" is broken toward the earlier insertion. -/
theorem vector_index_query_spec_witness :
    queryIndex [([1, 0], "a"), ([0, 1], "b"), ([1, 0], "c")] [1, 0] 0
      = .error .invalidArgument ∧
    queryIndex [] [1, 0] 2 = .error .emptyIndex ∧
    queryIndex [([1, 0], "a"), ([0, 1], "b"), ([1, 0], "c")] [1, 0] 2
      = .ok ["a", "c"] ∧
    (selectK 2 (entriesFrom [1, 0] 0 [([1, 0], "a"), ([0, 1], "b"), ([1, 0], "c")])).length
      = min 2 3 := by
  refine ⟨?_, ?_, ?_, ?_⟩
  · exact (vector_index_query_spec [([1, 0], "a"), ([0, 1], "b"), ([1, 0], "c")]
      [1, 0] 0).1 (by decide)
  · exact (vector_index_query_spec [] [1, 0] 2).2.1 (by decide) rfl
  · have h := ((vector_index_query_spec [([1, 0], "a"), ([0, 1], "b"), ([1, 0], "c")]
      [1, 0] 2).2.2 (by decide) (by decide)).1
    rw [h]
    have hs : (selectK (Int.toNat 2)
        (entriesFrom [1, 0] 0 [([1, 0], "a"), ([0, 1], "b"), ([1, 0], "c")])).map QEntry.chunk
        = ["a", "c"] := by decide
    rw [hs]
  · have h := ((vector_index_query_spec [([1, 0], "a"), ([0, 1], "b"), ([1, 0], "c")]
      [1, 0] 2).2.2 (by decide) (by decide)).2.1
    simpa using h

/-! ### C5: the chunker (src/app.py:54-61, langchain
RecursiveCharacterTextSplitter) -/

/-- The default separator cascade of langchain's
`RecursiveCharacterTextSplitter` used by `get_text_chunks`
(src/app.py:55-59): paragraph, newline, space, then single characters. -/
def sepList : List (List Char) := [['\n', '\n'], ['\n'], [' '], []]

/-- Python `str.strip()` on a character list: whitespace removed from both
ends (applied by the splitter's `_join_docs` since `strip_whitespace`
defaults to True). -/
def trimWS (l : List Char) : List Char :=
  ((l.dropWhile Char.isWhitespace).reverse.dropWhile Char.isWhitespace).reverse

/-- Fuelled worker for `re.split` on a literal separator: scan the text,
cutting at each leftmost non-overlapping occurrence of `sep`. The fuel is
the text length, which bounds the number of scan steps. -/
def splitOnAux (sep : List Char) : Nat → List Char → List Char → List (List Char)
  | 0, acc, rest => [acc.reverse ++ rest]
  | _ + 1, acc, [] => [acc.reverse]
  | n + 1, acc, c :: cs =>
    if !sep.isEmpty && startsSeq sep (c :: cs) then
      acc.reverse :: splitOnAux sep n [] (List.drop (sep.length - 1) cs)
    else
      splitOnAux sep n (c :: acc) cs

/-- Split like `re.split(sep, text)` for the literal separators of the cascade. -/
def splitOnSep (sep text : List Char) : List (List Char) :=
  splitOnAux sep text.length [] text

/-- The `keep_separator = True` recombination of
`_split_text_with_regex`: the matched separator is glued onto the piece
that follows it, and empty pieces are dropped. -/
def keepSepCombine (sep : List Char) (ps : List (List Char)) : List (List Char) :=
  match ps with
  | [] => []
  | p :: rest => (p :: rest.map fun q => sep ++ q).filter fun l => !l.isEmpty

/-- The separator-choice loop of `_split_text`: the first separator of the
cascade that occurs in the text (the empty separator always matches),
together with the remaining cascade for recursive splitting. -/
def chooseSep (text : List Char) : List (List Char) → List Char × List (List Char)
  | [] => ([], [])
  | s :: rest =>
    if s.isEmpty then ([], [])
    else if containsSeq s text then (s, rest)
    else chooseSep text rest

/-- The overlap-retention loop of `_merge_splits`: pop splits from the
front of the running window while its total length exceeds the overlap
(or would make the next chunk overflow). -/
def popWhile (ov size dlen : Nat) : List (List Char) → Nat → List (List Char) × Nat
  | [], total => ([], total)
  | x :: xs, total =>
    if ov < total || (size < total + dlen && 0 < total) then
      popWhile ov size dlen xs (total - x.length)
    else (x :: xs, total)

/-- Join like `_join_docs` for the empty joining separator: concatenate the window,
strip whitespace, and drop the chunk if nothing remains. -/
def joinTrim (cur : List (List Char)) : Option (List Char) :=
  let t := trimWS cur.flatten
  if t.isEmpty then none else some t

/-- The accumulation loop of `_merge_splits` (joining separator is empty
because `keep_separator = True`): fold the splits into a window, emitting
the joined window whenever the next split would overflow `size`, and carry
at most `ov` characters of trailing splits over into the next window. -/
def mergeAux (size ov : Nat) : List (List Char) → List (List Char) → Nat → List (List Char)
  | [], cur, _ => (joinTrim cur).toList
  | d :: ds, cur, total =>
    if size < total + d.length then
      if cur.isEmpty then
        mergeAux size ov ds (cur ++ [d]) (total + d.length)
      else
        (joinTrim cur).toList
          ++ mergeAux size ov ds ((popWhile ov size d.length cur total).1 ++ [d])
              ((popWhile ov size d.length cur total).2 + d.length)
    else
      mergeAux size ov ds (cur ++ [d]) (total + d.length)

/-- Run `_merge_splits` on a list of splits. -/
def mergeSplits (size ov : Nat) (splits : List (List Char)) : List (List Char) :=
  mergeAux size ov splits [] 0

/-- The piece-processing loop of `_split_text`: pieces shorter than `size`
accumulate into a buffer that is merged on flush; an oversized piece is
split recursively with the remaining cascade (or kept whole when the
cascade is exhausted). -/
def procLoop (size : Nat) (recurse : List Char → List (List Char))
    (mergeFn : List (List Char) → List (List Char)) (noRec : Bool) :
    List (List Char) → List (List Char) → List (List Char)
  | [], good => mergeFn good
  | s :: rest, good =>
    if s.length < size then procLoop size recurse mergeFn noRec rest (good ++ [s])
    else
      mergeFn good ++ (if noRec then [s] else recurse s)
        ++ procLoop size recurse mergeFn noRec rest []

/-- The `_split_text` recursion of `RecursiveCharacterTextSplitter`: choose the first
matching separator, split (attaching separators to the following piece, or
into single characters for the empty separator), then process the pieces.
The fuel is the cascade length, which bounds the recursion depth. -/
def splitRecF (size ov : Nat) : Nat → List (List Char) → List Char → List (List Char)
  | 0, _, text => [text]
  | fuel + 1, seps, text =>
    let sc := chooseSep text seps
    let pieces :=
      if sc.1.isEmpty then (text.map fun c => [c]).filter fun l => !l.isEmpty
      else keepSepCombine sc.1 (splitOnSep sc.1 text)
    procLoop size (splitRecF size ov fuel sc.2) (mergeSplits size ov) sc.2.isEmpty pieces []

/-- The chunker `split_text` with parameters `chunk_size` and `chunk_overlap` and the
default separator cascade. -/
def splitTextParams (size ov : Nat) (text : List Char) : List (List Char) :=
  splitRecF size ov sepList.length sepList text

/-- The function `get_text_chunks` (src/app.py:54-61): split every document with the
hard-coded parameters `chunk_size=1000`, `chunk_overlap=200` and
`length_function=len`. -/
def get_text_chunks (docs : List (List Char)) : List (List Char) :=
  (docs.map fun d => splitTextParams 1000 200 d).flatten

/-- The claimed reconstruction: the first chunk followed by the unique
(non-overlapping) span of every later chunk. -/
def reconstructText (ov : Nat) : List (List Char) → List Char
  | [] => []
  | c :: cs => c ++ (cs.map fun d => d.drop ov).flatten

/-- The claimed overlap property: every pair of consecutive chunks agrees
on exactly `ov` characters (suffix of the former, prefix of the latter). -/
def overlapExact (ov : Nat) : List (List Char) → Bool
  | [] => true
  | [_] => true
  | a :: b :: rest => (a.drop (a.length - ov) == b.take ov) && overlapExact ov (b :: rest)

/-- C5 counterexample: at the valid parameter pair (chunk_size 8,
chunk_overlap 3) and the non-empty text "aaa bbb ccc ddd", the chunker
splits at word boundaries and retains only whole splits of at most
chunk_overlap characters: the two produced chunks do not overlap by
exactly 3 characters (they do not overlap at all), and concatenating the
chunks' unique spans does not reconstruct the text. -/
theorem chunker_not_exact_overlap :
    (0 < 3 ∧ 3 < 8 ∧ String.toList "aaa bbb ccc ddd" ≠ []) ∧
    splitTextParams 8 3 (String.toList "aaa bbb ccc ddd")
      = [String.toList "aaa bbb", String.toList "ccc ddd"] ∧
    overlapExact 3 (splitTextParams 8 3 (String.toList "aaa bbb ccc ddd")) = false ∧
    reconstructText 3 (splitTextParams 8 3 (String.toList "aaa bbb ccc ddd"))
      ≠ String.toList "aaa bbb ccc ddd" := by
  refine ⟨⟨by decide, by decide, by decide⟩, by decide, by decide, by decide⟩

/-- Helper: a matched initial run starts with a member of the text. -/
theorem startsSeq_head_mem {a : Char} {as l : List Char}
    (h : startsSeq (a :: as) l = true) : a ∈ l := by
  cases l with
  | nil => exact absurd h (by simp [startsSeq])
  | cons b bs =>
    unfold startsSeq at h
    simp only [Bool.and_eq_true, beq_iff_eq] at h
    rw [h.1]
    exact List.mem_cons_self b bs

/-- Helper: an occurring separator has its head character in the text. -/
theorem containsSeq_head_mem {a : Char} {as text : List Char}
    (h : containsSeq (a :: as) text = true) : a ∈ text := by
  induction text with
  | nil => exact absurd h (by simp [containsSeq])
  | cons c cs ih =>
    unfold containsSeq at h
    simp only [Bool.or_eq_true] at h
    rcases h with hs | hc
    · exact startsSeq_head_mem hs
    · exact List.mem_cons_of_mem c (ih hc)

/-- Helper: a text with no whitespace contains none of the non-empty
separators, so the cascade falls through to the empty separator. -/
theorem chooseSep_no_ws {text : List Char}
    (h : ∀ c ∈ text, c.isWhitespace = false) :
    chooseSep text sepList = ([], []) := by
  have hnl : ('\n' : Char) ∉ text := fun hm => absurd (h _ hm) (by decide)
  have hsp : (' ' : Char) ∉ text := fun hm => absurd (h _ hm) (by decide)
  have h1 : containsSeq ['\n', '\n'] text = false := by
    cases hc : containsSeq ['\n', '\n'] text with
    | false => rfl
    | true => exact absurd (containsSeq_head_mem hc) hnl
  have h2 : containsSeq ['\n'] text = false := by
    cases hc : containsSeq ['\n'] text with
    | false => rfl
    | true => exact absurd (containsSeq_head_mem hc) hnl
  have h3 : containsSeq [' '] text = false := by
    cases hc : containsSeq [' '] text with
    | false => rfl
    | true => exact absurd (containsSeq_head_mem hc) hsp
  simp [sepList, chooseSep, h1, h2, h3]

/-- Helper: singleton pieces survive the non-emptiness filter. -/
theorem filter_singletons (text : List Char) :
    ((text.map fun c => [c]).filter fun l => !l.isEmpty) = text.map fun c => [c] := by
  induction text with
  | nil => rfl
  | cons c cs ih => simp [List.filter, ih]

/-- Helper: total length of the singleton pieces. -/
theorem singletons_length_sum (text : List Char) :
    ((text.map fun c => [c]).map List.length).sum = text.length := by
  induction text with
  | nil => rfl
  | cons c cs ih =>
    simp only [List.map_cons, List.sum_cons, List.length_cons, List.length_nil, ih]
    omega

/-- Helper: flattening the singleton pieces gives back the text. -/
theorem flatten_singletons (text : List Char) :
    (text.map fun c => [c]).flatten = text := by
  induction text with
  | nil => rfl
  | cons c cs ih => simp [ih]

/-- Helper: dropWhile does nothing on a whitespace-free list. -/
theorem dropWhile_no_ws {l : List Char}
    (h : ∀ c ∈ l, c.isWhitespace = false) :
    l.dropWhile Char.isWhitespace = l := by
  cases l with
  | nil => rfl
  | cons c cs =>
    rw [List.dropWhile_cons, h c (List.mem_cons_self c cs)]
    simp

/-- Helper: stripping does nothing on a whitespace-free list. -/
theorem trimWS_no_ws {l : List Char}
    (h : ∀ c ∈ l, c.isWhitespace = false) : trimWS l = l := by
  unfold trimWS
  rw [dropWhile_no_ws h,
    dropWhile_no_ws (fun c hc => h c (List.mem_reverse.mp hc))]
  exact List.reverse_reverse l

/-- Helper: when everything fits in one chunk, the merge loop emits the
single joined window. -/
theorem mergeAux_all_fits (size ov : Nat) : ∀ (splits cur : List (List Char)) (total : Nat),
    total + (splits.map List.length).sum ≤ size →
    mergeAux size ov splits cur total = (joinTrim (cur ++ splits)).toList := by
  intro splits
  induction splits with
  | nil =>
    intro cur total _
    simp [mergeAux]
  | cons d ds ih =>
    intro cur total hle
    simp only [List.map_cons, List.sum_cons] at hle
    have hd : ¬ size < total + d.length := by omega
    unfold mergeAux
    rw [if_neg hd, ih (cur ++ [d]) (total + d.length) (by omega)]
    congr 1
    simp

/-- Helper: when every piece is small, the processing loop just merges
the buffered pieces in order. -/
theorem procLoop_all_small (size : Nat) (recurse : List Char → List (List Char))
    (mergeFn : List (List Char) → List (List Char)) (noRec : Bool) :
    ∀ (pieces good : List (List Char)), (∀ p ∈ pieces, p.length < size) →
    procLoop size recurse mergeFn noRec pieces good = mergeFn (good ++ pieces) := by
  intro pieces
  induction pieces with
  | nil =>
    intro good _
    simp [procLoop]
  | cons s rest ih =>
    intro good hp
    unfold procLoop
    rw [if_pos (hp s (List.mem_cons_self s rest)),
      ih (good ++ [s]) (fun p hpm => hp p (List.mem_cons_of_mem s hpm))]
    congr 1
    simp

/-- Helper: one unfolding of the fuelled recursive splitter. -/
theorem splitRecF_succ (size ov fuel : Nat) (seps : List (List Char)) (text : List Char) :
    splitRecF size ov (fuel + 1) seps text
      = procLoop size (splitRecF size ov fuel (chooseSep text seps).2) (mergeSplits size ov)
          (chooseSep text seps).2.isEmpty
          (if (chooseSep text seps).1.isEmpty
            then (text.map fun c => [c]).filter fun l => !l.isEmpty
            else keepSepCombine (chooseSep text seps).1
                   (splitOnSep (chooseSep text seps).1 text))
          [] := rfl

/-- C5 amended: for every non-empty document text shorter than chunk_size,
free of whitespace (so nothing is stripped and no separator matches), and
for every valid parameter pair 0 < chunk_overlap < chunk_size, the chunker
returns the whole text as its single chunk; document order and exact
reconstruction hold trivially for that chunk. (For longer texts the chunks
stay in document order but consecutive chunks overlap by at most — not
exactly — chunk_overlap characters, in whole word/paragraph splits, and
boundary whitespace is stripped, as the counterexample shows.) -/
theorem chunker_single_chunk (size ov : Nat) (text : List Char)
    (h1 : 0 < ov) (h2 : ov < size) (h3 : text ≠ [])
    (h4 : text.length < size) (h5 : ∀ c ∈ text, c.isWhitespace = false) :
    splitTextParams size ov text = [text] ∧
    reconstructText ov (splitTextParams size ov text) = text := by
  have hsize2 : 1 < size := by omega
  have hsplit : splitTextParams size ov text = [text] := by
    show splitRecF size ov 4 sepList text = [text]
    rw [show (4 : Nat) = 3 + 1 from rfl, splitRecF_succ, chooseSep_no_ws h5]
    simp only [List.isEmpty_nil, if_true]
    rw [filter_singletons]
    rw [procLoop_all_small size _ _ _ (text.map fun c => [c]) []
      (by intro p hp; rcases List.mem_map.mp hp with ⟨c, _, rfl⟩; simpa using hsize2)]
    rw [List.nil_append]
    unfold mergeSplits
    rw [mergeAux_all_fits size ov (text.map fun c => [c]) [] 0
      (by rw [singletons_length_sum]; omega)]
    rw [List.nil_append]
    unfold joinTrim
    rw [flatten_singletons, trimWS_no_ws h5]
    simp [List.isEmpty_iff, h3]
  refine ⟨hsplit, ?_⟩
  rw [hsplit]
  simp [reconstructText]

/-- Witness for C5 amended at the text "abc" with chunk_size 8 and
chunk_overlap 3. -/
theorem chunker_single_chunk_witness :
    (0 < 3 ∧ 3 < 8 ∧ String.toList "abc" ≠ [] ∧ (String.toList "abc").length < 8 ∧
      ∀ c ∈ String.toList "abc", c.isWhitespace = false) ∧
    splitTextParams 8 3 (String.toList "abc") = [String.toList "abc"] := by
  have h5 : ∀ c ∈ String.toList "abc", c.isWhitespace = false := by decide
  exact ⟨⟨by decide, by decide, by decide, by decide, h5⟩,
    (chunker_single_chunk 8 3 (String.toList "abc") (by decide) (by decide) (by decide)
      (by decide) h5).1⟩
